import Mathlib

/-!
Formal model of the workout-logging utility in `Main.py`.

The development shallowly embeds the data-integrity core of the program:

* `slugify` — identifier normalisation,
* the movement-catalog store (`load_movements`, `append_movement`),
* the set-log store (`append_set_record`),
* the summary aggregator (`export_summary_rows`), and
* the importer (`import_rows`, `import_movements_file`).

Strings are modelled over their character lists; the character-level
operations (`strip`, `lower`, `isalnum`) are modelled on the ASCII range,
matching `Char.toLower`/`Char.isAlphanum`.  Backing CSV files are modelled
as lists of records (one record per data row); the CSV serialisation layer
is assumed to round-trip field values.
-/

/-- ASCII whitespace recognised by Python's `str.strip`. -/
def pyIsSpace (c : Char) : Bool :=
  c == ' ' || c == '\t' || c == '\n' || c == '\r' || c == '\x0b' || c == '\x0c'

/-- Python `str.strip` on a character list: drop whitespace from both ends. -/
def pyStripL (l : List Char) : List Char :=
  (((l.dropWhile pyIsSpace).reverse.dropWhile pyIsSpace)).reverse

/-- Python `str.strip`. -/
def pyStrip (s : String) : String := ⟨pyStripL s.data⟩

/-- Python `str.lower` (ASCII range). -/
def pyLower (s : String) : String := ⟨s.data.map Char.toLower⟩

/-- The character substitution performed by `.replace(" ", "_")`:
each space character becomes an underscore. -/
def slugRepl (c : Char) : Char := if c == ' ' then '_' else c

/-- The character filter of `slugify`: keep alphanumerics and underscores. -/
def slugKeep (c : Char) : Bool := c.isAlphanum || c == '_'

/-- `slugify` from `Main.py` on a character list:
`name.strip().lower().replace(" ", "_")`, filtered to alphanumerics and
underscores, truncated to 40 characters. -/
def slugifyL (l : List Char) : List Char :=
  ((((pyStripL l).map Char.toLower).map slugRepl).filter slugKeep).take 40

/-- `slugify` from `Main.py`. -/
def slugify (s : String) : String := ⟨slugifyL s.data⟩

/-! Character-level facts used for the `slugify` theorems. -/

theorem toLower_eq_self_of_not_upper {c : Char}
    (h : ¬(c.toNat ≥ 65 ∧ c.toNat ≤ 90)) : c.toLower = c := by
  unfold Char.toLower
  simp only [if_neg h]

theorem toLower_not_upper (c : Char) :
    ¬((Char.toLower c).toNat ≥ 65 ∧ (Char.toLower c).toNat ≤ 90) := by
  by_cases h : c.toNat ≥ 65 ∧ c.toNat ≤ 90
  · unfold Char.toLower
    rw [if_pos h]
    obtain ⟨h1, h2⟩ := h
    set m := c.toNat with hm
    interval_cases m <;> decide
  · rw [toLower_eq_self_of_not_upper h]
    exact h

theorem toLower_toLower (c : Char) : (Char.toLower c).toLower = Char.toLower c :=
  toLower_eq_self_of_not_upper (toLower_not_upper c)

theorem pyIsSpace_toLower (c : Char) : pyIsSpace (Char.toLower c) = pyIsSpace c := by
  by_cases h : c.toNat ≥ 65 ∧ c.toNat ≤ 90
  · have hs : pyIsSpace c = false := by
      obtain ⟨h1, h2⟩ := h
      unfold pyIsSpace
      by_contra hcon
      simp only [Bool.not_eq_false, Bool.or_eq_true, beq_iff_eq] at hcon
      rcases hcon with ((((rfl | rfl) | rfl) | rfl) | rfl) | rfl <;>
        exact absurd h1 (by decide)
    rw [hs]
    unfold Char.toLower
    rw [if_pos h]
    obtain ⟨h1, h2⟩ := h
    set m := c.toNat with hm
    interval_cases m <;> decide
  · rw [toLower_eq_self_of_not_upper h]

theorem not_space_of_slugKeep {c : Char} (h : slugKeep c = true) :
    pyIsSpace c = false := by
  unfold pyIsSpace
  by_contra hcon
  simp only [Bool.not_eq_false, Bool.or_eq_true, beq_iff_eq] at hcon
  rcases hcon with ((((rfl | rfl) | rfl) | rfl) | rfl) | rfl <;>
    simp [slugKeep, Char.isAlphanum, Char.isAlpha, Char.isUpper, Char.isLower,
      Char.isDigit] at h

theorem mem_of_mem_take {α : Type} {a : α} : ∀ {n : Nat} {l : List α},
    a ∈ l.take n → a ∈ l := by
  intro n
  induction n with
  | zero => intro l h; simp [List.take] at h
  | succ n ih =>
    intro l h
    cases l with
    | nil => simp at h
    | cons x xs =>
      simp only [List.take, List.mem_cons] at h ⊢
      rcases h with h | h
      · exact Or.inl h
      · exact Or.inr (ih h)

theorem dropWhile_eq_self_of_all {p : Char → Bool} {l : List Char}
    (h : ∀ c ∈ l, p c = false) : l.dropWhile p = l := by
  cases l with
  | nil => rfl
  | cons x xs =>
    have hx : p x = false := h x (List.mem_cons_self x xs)
    simp [List.dropWhile, hx]

theorem map_eq_self_of_fix {α : Type} {f : α → α} {l : List α}
    (h : ∀ c ∈ l, f c = c) : l.map f = l := by
  induction l with
  | nil => rfl
  | cons x xs ih =>
    simp only [List.map_cons, List.cons.injEq]
    exact ⟨h x (List.mem_cons_self x xs), ih fun c hc => h c (List.mem_cons_of_mem x hc)⟩

theorem pyStripL_eq_self_of_all {l : List Char}
    (h : ∀ c ∈ l, pyIsSpace c = false) : pyStripL l = l := by
  unfold pyStripL
  rw [dropWhile_eq_self_of_all h]
  rw [dropWhile_eq_self_of_all (fun c hc => h c (List.mem_reverse.mp hc))]
  exact List.reverse_reverse l

theorem slugKeep_of_mem_slugifyL {c : Char} {l : List Char}
    (h : c ∈ slugifyL l) : slugKeep c = true := by
  unfold slugifyL at h
  have h2 := mem_of_mem_take h
  exact (List.mem_filter.mp h2).2

theorem toLower_fix_of_mem_slugifyL {c : Char} {l : List Char}
    (h : c ∈ slugifyL l) : Char.toLower c = c := by
  unfold slugifyL at h
  have h2 := (List.mem_filter.mp (mem_of_mem_take h)).1
  rw [List.map_map] at h2
  obtain ⟨a, _, ha⟩ := List.mem_map.mp h2
  subst ha
  show Char.toLower (slugRepl (Char.toLower a)) = slugRepl (Char.toLower a)
  unfold slugRepl
  by_cases hsp : Char.toLower a == ' '
  · rw [if_pos hsp]; decide
  · rw [if_neg hsp]; exact toLower_toLower a

theorem slugifyL_length_le (l : List Char) : (slugifyL l).length ≤ 40 := by
  unfold slugifyL
  exact List.length_take_le 40 _

theorem slugifyL_eq_self_of {O : List Char}
    (hkeep : ∀ c ∈ O, slugKeep c = true)
    (hlower : ∀ c ∈ O, Char.toLower c = c)
    (hlen : O.length ≤ 40) : slugifyL O = O := by
  have hnospace : ∀ c ∈ O, pyIsSpace c = false :=
    fun c hc => not_space_of_slugKeep (hkeep c hc)
  have hrepl : ∀ c ∈ O, slugRepl c = c := by
    intro c hc
    unfold slugRepl
    have hsp := hnospace c hc
    have hne : (c == ' ') = false := by
      by_contra hcon
      simp only [Bool.not_eq_false, beq_iff_eq] at hcon
      subst hcon
      simp [pyIsSpace] at hsp
    rw [hne]
    rfl
  unfold slugifyL
  rw [pyStripL_eq_self_of_all hnospace]
  rw [map_eq_self_of_fix hlower]
  rw [map_eq_self_of_fix hrepl]
  rw [List.filter_eq_self.mpr hkeep]
  exact List.take_of_length_le hlen

theorem slugifyL_idem (l : List Char) : slugifyL (slugifyL l) = slugifyL l :=
  slugifyL_eq_self_of (fun _ hc => slugKeep_of_mem_slugifyL hc)
    (fun _ hc => toLower_fix_of_mem_slugifyL hc) (slugifyL_length_le l)

/-- C8: for every string, `slugify` (the spec's `normalize`) is idempotent:
`slugify (slugify x) = slugify x`. -/
theorem slugify_idempotent (s : String) : slugify (slugify s) = slugify s :=
  congrArg String.mk (slugifyL_idem s.data)

/-- C3 counterexample: the claim says `slugify` replaces each *run* of interior
whitespace with a single joining character, so on `"a  b"` (a run of two
spaces) it would have to return `"a_b"`.  The code replaces every space
character separately and returns `"a__b"`. -/
theorem slugify_run_counterexample :
    slugify "a  b" = "a__b" ∧ ("a__b" : String) ≠ "a_b" := by
  constructor
  · decide
  · decide

/-- The amended C3 normalisation pipeline, stated in the claim's order of
operations: lowercase, trim, replace each interior space character (not each
run) with the joining character, strip every character that is not
alphanumeric or the joining character, truncate to 40 characters. -/
def normalizeAmended (s : String) : String :=
  ⟨((((pyStripL (s.data.map Char.toLower)).map slugRepl).filter slugKeep).take 40)⟩

theorem dropWhile_map_toLower (l : List Char) :
    (l.map Char.toLower).dropWhile pyIsSpace =
      (l.dropWhile pyIsSpace).map Char.toLower := by
  induction l with
  | nil => rfl
  | cons x xs ih =>
    simp only [List.map_cons, List.dropWhile]
    rw [pyIsSpace_toLower x]
    by_cases hx : pyIsSpace x
    · rw [hx]; simpa using ih
    · simp only [Bool.not_eq_true] at hx
      rw [hx]
      simp

theorem pyStripL_map_toLower (l : List Char) :
    pyStripL (l.map Char.toLower) = (pyStripL l).map Char.toLower := by
  unfold pyStripL
  rw [dropWhile_map_toLower]
  rw [← List.map_reverse]
  rw [dropWhile_map_toLower]
  rw [← List.map_reverse]

/-- C3 amended: `slugify` lowercases, trims leading and trailing whitespace,
replaces each interior space character with the joining character `_`
(a run of k spaces yields k joining characters; other whitespace characters
are removed by the alphanumeric filter), strips every character that is not
alphanumeric or the joining character, and truncates to at most 40
characters.  It is a pure function of its argument. -/
theorem slugify_amended (s : String) : slugify s = normalizeAmended s := by
  unfold slugify normalizeAmended slugifyL
  rw [pyStripL_map_toLower]

/-! The movement catalog store.

The backing CSV file `movements.csv` is modelled as the list of its data
rows, one `Movement` per row; the CSV layer round-trips every field. -/

/-- A row of the movement catalog (the `Movement` dataclass). -/
structure Movement where
  id : String
  name : String
  category : String := ""
  default_unit : String := ""
  primary_muscle : String := ""
  secondary_muscles : String := ""
  notes : String := ""
deriving DecidableEq

/-- The key under which `load_movements` stores a row:
`row.get("id") or slugify(row.get("name", ""))`. -/
def rowKey (m : Movement) : String := if m.id ≠ "" then m.id else slugify m.name

/-- Errors raised by the catalog store (`ValueError` for duplicate ids). -/
inductive CatalogError where
  | duplicateIdentifier
deriving DecidableEq

/-- Insertion-ordered dictionary, as Python's `dict`: updating an existing
key keeps its position, a new key is appended at the end. -/
def dictInsert (d : List (String × Movement)) (k : String) (v : Movement) :
    List (String × Movement) :=
  if d.any (fun p => p.1 == k) then
    d.map (fun p => if p.1 == k then (k, v) else p)
  else d ++ [(k, v)]

/-- Key membership in the dictionary. -/
def dictContains (d : List (String × Movement)) (k : String) : Bool :=
  d.any (fun p => p.1 == k)

/-- Dictionary lookup. -/
def dictFind (d : List (String × Movement)) (k : String) : Option Movement :=
  (d.find? (fun p => p.1 == k)).map (fun p => p.2)

/-- `load_movements` from `Main.py`: builds `mid -> Movement` over all rows,
where `mid` is the row's id or, when that is empty, the slug of its name;
later rows overwrite earlier rows with the same key. -/
def load_movements (file : List Movement) : List (String × Movement) :=
  file.foldl (fun d m => dictInsert d (rowKey m) { m with id := rowKey m }) []

/-- `append_movement` from `Main.py`: reload the catalog, reject the id if it
is already a key of the loaded catalog, otherwise append one row. -/
def append_movement (file : List Movement) (m : Movement) :
    Except CatalogError (List Movement) :=
  if dictContains (load_movements file) m.id then .error .duplicateIdentifier
  else .ok (file ++ [m])

/-- A sequence of `append_movement` calls, stopping at the first error. -/
def appendChain (file : List Movement) (ms : List Movement) :
    Except CatalogError (List Movement) :=
  ms.foldlM append_movement file

/-! Dictionary lemmas. -/

theorem any_congr {α : Type} {p q : α → Bool} {l : List α}
    (h : ∀ a ∈ l, p a = q a) : l.any p = l.any q := by
  induction l with
  | nil => rfl
  | cons x xs ih =>
    simp only [List.any_cons]
    rw [h x (List.mem_cons_self x xs), ih fun a ha => h a (List.mem_cons_of_mem x ha)]

theorem dictFind_insert_self (d : List (String × Movement)) (k : String)
    (v : Movement) : dictFind (dictInsert d k v) k = some v := by
  unfold dictInsert
  by_cases h : (d.any fun p => p.1 == k) = true
  · rw [if_pos h]
    unfold dictFind
    induction d with
    | nil => simp at h
    | cons p ds ih =>
      rw [List.map_cons]
      by_cases hp : (p.1 == k) = true
      · rw [if_pos hp]
        simp only [List.find?_cons, beq_self_eq_true]
        rfl
      · rw [if_neg hp]
        have hp' : (p.1 == k) = false := by simpa using hp
        simp only [List.find?_cons, hp']
        rw [List.any_cons, hp', Bool.false_or] at h
        exact ih h
  · rw [if_neg h]
    unfold dictFind
    rw [List.find?_append]
    have hnone : d.find? (fun p => p.1 == k) = none := by
      rw [List.find?_eq_none]
      intro p hp hpk
      exact h (List.any_eq_true.mpr ⟨p, hp, hpk⟩)
    rw [hnone]
    simp only [Option.none_or, List.find?_cons, beq_self_eq_true]
    rfl

theorem find?_map_update_ne {k k' : String} {v : Movement}
    (hkk : (k == k') = false) : ∀ d : List (String × Movement),
    (d.map (fun p => if p.1 == k then (k, v) else p)).find? (fun p => p.1 == k') =
      d.find? (fun p => p.1 == k') := by
  intro d
  induction d with
  | nil => rfl
  | cons p ds ih =>
    rw [List.map_cons]
    by_cases hp : (p.1 == k) = true
    · have hp1 : p.1 = k := by simpa using hp
      rw [if_pos hp]
      simp only [List.find?_cons, hp1, hkk]
      exact ih
    · rw [if_neg hp]
      by_cases hq : (p.1 == k') = true
      · simp only [List.find?_cons, hq]
      · have hq' : (p.1 == k') = false := by simpa using hq
        simp only [List.find?_cons, hq']
        exact ih

theorem dictFind_insert_ne (d : List (String × Movement)) (k k' : String)
    (v : Movement) (h : k' ≠ k) :
    dictFind (dictInsert d k v) k' = dictFind d k' := by
  have hkk : (k == k') = false := beq_eq_false_iff_ne.mpr fun e => h e.symm
  unfold dictInsert
  by_cases hc : (d.any fun p => p.1 == k) = true
  · rw [if_pos hc]
    unfold dictFind
    rw [find?_map_update_ne hkk]
  · rw [if_neg hc]
    unfold dictFind
    rw [List.find?_append]
    cases hfind : d.find? (fun p => p.1 == k') with
    | some p => simp [hfind]
    | none =>
      simp only [Option.none_or, List.find?_cons, hkk]
      rfl

theorem dictContains_insert (d : List (String × Movement)) (k k' : String)
    (v : Movement) :
    dictContains (dictInsert d k v) k' = (k == k' || dictContains d k') := by
  unfold dictInsert dictContains
  by_cases hc : (d.any fun p => p.1 == k) = true
  · rw [if_pos hc]
    rw [List.any_map]
    by_cases hkk : (k == k') = true
    · have hL : (d.any ((fun p => p.1 == k') ∘ fun p => if p.1 == k then (k, v) else p))
          = true := by
        obtain ⟨p, hp, hpk⟩ := List.any_eq_true.mp hc
        refine List.any_eq_true.mpr ⟨p, hp, ?_⟩
        simp only [Function.comp]
        rw [if_pos hpk]
        exact hkk
      rw [hL, hkk, Bool.true_or]
    · have hkk' : (k == k') = false := by simpa using hkk
      rw [hkk', Bool.false_or]
      apply any_congr
      intro p hp
      simp only [Function.comp]
      by_cases hp1 : (p.1 == k) = true
      · have h1 : p.1 = k := by simpa using hp1
        rw [if_pos hp1]
        show (k == k') = (p.1 == k')
        rw [h1]
      · rw [if_neg hp1]
  · rw [if_neg hc]
    rw [List.any_append]
    simp only [List.any_cons, List.any_nil, Bool.or_false]
    exact Bool.or_comm _ _

theorem dictFind_some_contains {d : List (String × Movement)} {k : String}
    {v : Movement} (h : dictFind d k = some v) : dictContains d k = true := by
  unfold dictFind at h
  unfold dictContains
  cases hfind : d.find? (fun p => p.1 == k) with
  | none => rw [hfind] at h; simp at h
  | some p =>
    have hp := List.find?_some hfind
    have hmem := List.mem_of_find?_eq_some hfind
    exact List.any_eq_true.mpr ⟨p, hmem, hp⟩
theorem load_movements_snoc (file : List Movement) (m : Movement) :
    load_movements (file ++ [m]) =
      dictInsert (load_movements file) (rowKey m) { m with id := rowKey m } := by
  unfold load_movements
  rw [List.foldl_append]
  rfl

/-- C1 counterexample: for movements with an empty id the claim fails.  With
`m = Movement(id="", name="X")`, appending `m` twice to an empty catalog
succeeds both times (no `DuplicateIdentifier` on the second call), and after
the first append `loadAll` does not contain any entry under `m.id = ""` (the
row is keyed under `slugify("X") = "x"` instead).  Moreover empty-id rows
shadow earlier non-empty ids: after appending `Movement(id="x", name="A")`
and then `Movement(id="", name="X")` (accepted, since `""` is not a key),
`loadAll` maps `"x"` to the second row, so the first movement is no longer
visible under its id. -/
theorem append_movement_empty_id_counterexample :
    append_movement [] ⟨"", "X", "", "", "", "", ""⟩ =
        .ok [⟨"", "X", "", "", "", "", ""⟩] ∧
    append_movement [⟨"", "X", "", "", "", "", ""⟩] ⟨"", "X", "", "", "", "", ""⟩ =
        .ok [⟨"", "X", "", "", "", "", ""⟩, ⟨"", "X", "", "", "", "", ""⟩] ∧
    dictFind (load_movements [⟨"", "X", "", "", "", "", ""⟩]) "" = none ∧
    append_movement [⟨"x", "A", "", "", "", "", ""⟩] ⟨"", "X", "", "", "", "", ""⟩ =
        .ok [⟨"x", "A", "", "", "", "", ""⟩, ⟨"", "X", "", "", "", "", ""⟩] ∧
    dictFind (load_movements
        [⟨"x", "A", "", "", "", "", ""⟩, ⟨"", "X", "", "", "", "", ""⟩]) "x" =
      some ⟨"x", "X", "", "", "", "", ""⟩ := by
  exact ⟨rfl, rfl, rfl, rfl, rfl⟩

theorem appendChain_preserves (m : Movement) :
    ∀ (extra file file2 : List Movement),
    dictFind (load_movements file) m.id = some m →
    (∀ x ∈ extra, x.id ≠ "") →
    appendChain file extra = .ok file2 →
    dictFind (load_movements file2) m.id = some m := by
  intro extra
  induction extra with
  | nil =>
    intro file file2 hfind _ hok
    simp only [appendChain, List.foldlM_nil] at hok
    cases hok
    exact hfind
  | cons x xs ih =>
    intro file file2 hfind hids hok
    simp only [appendChain, List.foldlM_cons] at hok
    by_cases hcx : dictContains (load_movements file) x.id = true
    · unfold append_movement at hok
      rw [if_pos hcx] at hok
      simp [Bind.bind, Except.bind] at hok
    · have hxid : x.id ≠ m.id := by
        intro he
        rw [he] at hcx
        exact hcx (dictFind_some_contains hfind)
      have hxne : x.id ≠ "" := hids x (List.mem_cons_self x xs)
      unfold append_movement at hok
      rw [if_neg hcx] at hok
      simp only [Bind.bind, Except.bind] at hok
      have hfind2 : dictFind (load_movements (file ++ [x])) m.id = some m := by
        rw [load_movements_snoc]
        have hrk : rowKey x = x.id := by unfold rowKey; rw [if_pos hxne]
        rw [hrk]
        rw [dictFind_insert_ne _ _ _ _ (fun he => hxid he.symm)]
        exact hfind
      exact ih (file ++ [x]) file2 hfind2
        (fun y hy => hids y (List.mem_cons_of_mem x hy)) hok

/-- C1 (amended): restricted to movements with non-empty ids.  For every
movement `m` with `m.id ≠ ""`: `append_movement` fails with
`DuplicateIdentifier` when `m.id` is already a key of the loaded catalog;
otherwise it appends exactly one row, every `load_movements` issued after the
call — including after any chain of further successful appends of rows with
non-empty ids — maps `m.id` to `m`, and appending the same id again raises
`DuplicateIdentifier`.  (The unamended claim, quantified over all movements,
fails for empty ids; see the counterexample.) -/
theorem append_movement_spec (cat : List Movement) (m : Movement)
    (hid : m.id ≠ "") :
    (dictContains (load_movements cat) m.id = true →
        append_movement cat m = .error .duplicateIdentifier) ∧
    (dictContains (load_movements cat) m.id = false →
        append_movement cat m = .ok (cat ++ [m]) ∧
        (∀ extra file2, (∀ x ∈ extra, x.id ≠ "") →
            appendChain (cat ++ [m]) extra = .ok file2 →
            dictFind (load_movements file2) m.id = some m) ∧
        (∀ m2 : Movement, m2.id = m.id →
            append_movement (cat ++ [m]) m2 = .error .duplicateIdentifier)) := by
  have hrk : rowKey m = m.id := by unfold rowKey; rw [if_pos hid]
  constructor
  · intro h
    unfold append_movement
    rw [if_pos h]
  · intro hnc
    have hfind1 : dictFind (load_movements (cat ++ [m])) m.id = some m := by
      rw [load_movements_snoc, hrk]
      have : ({ m with id := m.id } : Movement) = m := rfl
      rw [this]
      exact dictFind_insert_self _ _ _
    refine ⟨?_, ?_, ?_⟩
    · unfold append_movement
      rw [if_neg (by rw [hnc]; exact Bool.false_ne_true)]
    · intro extra file2 hids hok
      exact appendChain_preserves m extra (cat ++ [m]) file2 hfind1 hids hok
    · intro m2 hm2
      unfold append_movement
      have hc2 : dictContains (load_movements (cat ++ [m])) m2.id = true := by
        rw [hm2, load_movements_snoc, hrk, dictContains_insert]
        simp
      rw [if_pos hc2]

/-- Witness for the amended C1 at a concrete input: appending
`Movement(id="foo", name="Foo Lift")` to an empty catalog succeeds and the
reloaded catalog maps `"foo"` to it. -/
theorem append_movement_spec_witness :
    append_movement [] ⟨"foo", "Foo Lift", "Test", "", "", "", ""⟩ =
        .ok [⟨"foo", "Foo Lift", "Test", "", "", "", ""⟩] ∧
    dictFind (load_movements [⟨"foo", "Foo Lift", "Test", "", "", "", ""⟩]) "foo" =
        some ⟨"foo", "Foo Lift", "Test", "", "", "", ""⟩ := by
  have h := (append_movement_spec [] ⟨"foo", "Foo Lift", "Test", "", "", "", ""⟩
    (by decide)).2 (by decide)
  exact ⟨h.1, h.2.1 [] [⟨"foo", "Foo Lift", "Test", "", "", "", ""⟩]
    (fun x hx => absurd hx (List.not_mem_nil x)) rfl⟩

/-! The set log store.

`workouts.csv` is modelled as the list of its data rows.  A stored row
(`SetRow`) holds the 16 fields in their serialised string form; a
`SetRecord` is the in-memory dataclass with its Python field types
(`Optional` fields become `Option`). -/

/-- The `SetRecord` dataclass from `Main.py`. -/
structure SetRecord where
  workout_id : String
  date : String
  start_time : String
  movement_id : String
  movement_name : String
  set_number : Int
  set_type : String := "work"
  cluster_id : String := ""
  reps : Option String := some ""
  load : Option Float := none
  unit : String := ""
  rest_seconds : Option Int := none
  rpe : Option Float := none
  tags : String := ""
  notes : String := ""
  created_at : String := ""

/-- One serialised row of `workouts.csv` (all 16 fields as stored). -/
structure SetRow where
  workout_id : String
  date : String
  start_time : String
  movement_id : String
  movement_name : String
  set_number : String
  set_type : String
  cluster_id : String
  reps : String
  load : String
  unit : String
  rest_seconds : String
  rpe : String
  tags : String
  notes : String
  created_at : String
deriving DecidableEq

/-- Serialisation of one record by `csv.writer.writerow` in
`append_set_record`: numbers are rendered with `str`, `None` becomes the
empty field. -/
def toSetRow (r : SetRecord) : SetRow where
  workout_id := r.workout_id
  date := r.date
  start_time := r.start_time
  movement_id := r.movement_id
  movement_name := r.movement_name
  set_number := toString r.set_number
  set_type := r.set_type
  cluster_id := r.cluster_id
  reps := r.reps.getD ""
  load := match r.load with | some f => toString f | none => ""
  unit := r.unit
  rest_seconds := match r.rest_seconds with | some n => toString n | none => ""
  rpe := match r.rpe with | some f => toString f | none => ""
  tags := r.tags
  notes := r.notes
  created_at := r.created_at

/-- `append_set_record` from `Main.py`.  The current local timestamp
`datetime.datetime.now().isoformat()` is passed in as `now`.  The function
mutates its argument (stamping `created_at` when it is empty) and appends
one row to the log; the returned pair is the mutated record and the new
file contents. -/
def append_set_record (file : List SetRow) (record : SetRecord) (now : String) :
    SetRecord × List SetRow :=
  let record := if record.created_at = "" then { record with created_at := now }
    else record
  (record, file ++ [toSetRow record])

/-- A sequence of `append_set_record` calls, each with its own timestamp. -/
def appendAllSets (file : List SetRow) (recs : List (SetRecord × String)) :
    List SetRow :=
  recs.foldl (fun f p => (append_set_record f p.1 p.2).2) file

/-- C7: if the record's `created_at` field is unset (empty), `append_set_record`
stamps it with the current timestamp; if it is already set, the value is left
unchanged. -/
theorem append_set_record_created_at (file : List SetRow) (r : SetRecord)
    (now : String) :
    (r.created_at = "" → (append_set_record file r now).1.created_at = now) ∧
    (r.created_at ≠ "" → (append_set_record file r now).1.created_at = r.created_at) := by
  constructor
  · intro h
    unfold append_set_record
    simp only [if_pos h]
  · intro h
    unfold append_set_record
    simp only [if_neg h]

/-- Witness for C7 at concrete inputs: a record with empty `created_at` is
stamped, one with a set `created_at` keeps it. -/
theorem append_set_record_created_at_witness :
    (append_set_record []
        ⟨"w1", "2025-01-01", "12:00:00", "bar", "Barbell Press", 1, "work", "",
          some "5", none, "kg", none, none, "", "", ""⟩
        "2025-01-01T12:00:00").1.created_at = "2025-01-01T12:00:00" ∧
    (append_set_record []
        ⟨"w1", "2025-01-01", "12:00:00", "bar", "Barbell Press", 1, "work", "",
          some "5", none, "kg", none, none, "", "", "2024-12-31T08:00:00"⟩
        "2025-01-01T12:00:00").1.created_at = "2024-12-31T08:00:00" := by
  constructor
  · exact (append_set_record_created_at []
      ⟨"w1", "2025-01-01", "12:00:00", "bar", "Barbell Press", 1, "work", "",
        some "5", none, "kg", none, none, "", "", ""⟩
      "2025-01-01T12:00:00").1 rfl
  · exact (append_set_record_created_at []
      ⟨"w1", "2025-01-01", "12:00:00", "bar", "Barbell Press", 1, "work", "",
        some "5", none, "kg", none, none, "", "", "2024-12-31T08:00:00"⟩
      "2025-01-01T12:00:00").2 (by decide)

/-- C9: `append_set_record` mutates the record passed to it in place: after
the call the argument's `created_at` is non-empty (the timestamp is never
empty), and every other field holds exactly the value it held before the
call. -/
theorem append_set_record_frame (file : List SetRow) (r : SetRecord)
    (now : String) (hnow : now ≠ "") :
    (append_set_record file r now).1.created_at ≠ "" ∧
    (append_set_record file r now).1.workout_id = r.workout_id ∧
    (append_set_record file r now).1.date = r.date ∧
    (append_set_record file r now).1.start_time = r.start_time ∧
    (append_set_record file r now).1.movement_id = r.movement_id ∧
    (append_set_record file r now).1.movement_name = r.movement_name ∧
    (append_set_record file r now).1.set_number = r.set_number ∧
    (append_set_record file r now).1.set_type = r.set_type ∧
    (append_set_record file r now).1.cluster_id = r.cluster_id ∧
    (append_set_record file r now).1.reps = r.reps ∧
    (append_set_record file r now).1.load = r.load ∧
    (append_set_record file r now).1.unit = r.unit ∧
    (append_set_record file r now).1.rest_seconds = r.rest_seconds ∧
    (append_set_record file r now).1.rpe = r.rpe ∧
    (append_set_record file r now).1.tags = r.tags ∧
    (append_set_record file r now).1.notes = r.notes := by
  unfold append_set_record
  by_cases h : r.created_at = ""
  · simp only [if_pos h]
    simp [hnow]
  · simp only [if_neg h]
    simp [h]

/-- Witness for C9 at a concrete input. -/
theorem append_set_record_frame_witness :
    (append_set_record []
        ⟨"w1", "2025-01-01", "12:00:00", "bar", "Barbell Press", 1, "work", "",
          some "5", none, "kg", none, none, "", "", ""⟩
        "2025-01-01T12:00:00").1.created_at ≠ "" ∧
    (append_set_record []
        ⟨"w1", "2025-01-01", "12:00:00", "bar", "Barbell Press", 1, "work", "",
          some "5", none, "kg", none, none, "", "", ""⟩
        "2025-01-01T12:00:00").1.reps = some "5" :=
  have h := append_set_record_frame []
    ⟨"w1", "2025-01-01", "12:00:00", "bar", "Barbell Press", 1, "work", "",
      some "5", none, "kg", none, none, "", "", ""⟩
    "2025-01-01T12:00:00" (by decide)
  ⟨h.1, h.2.2.2.2.2.2.2.2.2.1⟩

/-! The summary aggregator (`export_summary`). -/

/-- One output row of `export_summary`: the workout id, the date captured
from the first record seen for that workout, and the ordered per-set
descriptors that are joined with ";" into `movements_summary`. -/
structure SummaryRow where
  workout_id : String
  date : String
  movements : List String
deriving DecidableEq

/-- The per-set descriptor built by `export_summary`:
`f"{movement_name}:{set_number}x{reps}@{load}"` over the stored fields. -/
def descriptor (r : SetRow) : String :=
  r.movement_name ++ ":" ++ r.set_number ++ "x" ++ r.reps ++ "@" ++ r.load

/-- One step of the aggregation loop: `tmp.setdefault(wid, ...)` followed by
appending the descriptor to the group (Python dicts preserve insertion
order, so the accumulator is an insertion-ordered list of groups). -/
def summaryStep (acc : List SummaryRow) (r : SetRow) : List SummaryRow :=
  if acc.any (fun s => s.workout_id == r.workout_id) then
    acc.map (fun s => if s.workout_id == r.workout_id then
      { s with movements := s.movements ++ [descriptor r] } else s)
  else acc ++ [⟨r.workout_id, r.date, [descriptor r]⟩]

/-- The grouping pass of `export_summary` over the log rows
(`rows = list(tmp.values())`). -/
def export_summary_rows (rows : List SetRow) : List SummaryRow :=
  rows.foldl summaryStep []

/-- Modelled from the spec: the distinct workout ids in first-seen order. -/
def firstSeenWids (rows : List SetRow) : List String :=
  rows.foldl (fun ws r => if ws.contains r.workout_id then ws
    else ws ++ [r.workout_id]) []

/-- Modelled from the spec: the summary for one workout id, built from the
full scan — date from the first record of the group, one descriptor per
record in log order. -/
def specEntry (rows : List SetRow) (w : String) : SummaryRow where
  workout_id := w
  date := (((rows.filter (fun r => r.workout_id == w)).head?).map SetRow.date).getD ""
  movements := (rows.filter (fun r => r.workout_id == w)).map descriptor

/-- Modelled from the spec: one summary per distinct workout id, in
first-seen order. -/
def summarizeSpec (rows : List SetRow) : List SummaryRow :=
  (firstSeenWids rows).map (specEntry rows)

theorem mem_firstSeen_foldl (w : String) : ∀ (rows : List SetRow) (acc : List String),
    (w ∈ rows.foldl (fun ws r => if ws.contains r.workout_id then ws
        else ws ++ [r.workout_id]) acc) ↔
      w ∈ acc ∨ ∃ r ∈ rows, r.workout_id = w := by
  intro rows
  induction rows with
  | nil => intro acc; simp
  | cons r rs ih =>
    intro acc
    rw [List.foldl_cons, ih]
    by_cases hc : acc.contains r.workout_id = true
    · rw [if_pos hc]
      constructor
      · rintro (h | h)
        · exact Or.inl h
        · exact Or.inr (by obtain ⟨x, hx, hxe⟩ := h; exact ⟨x, List.mem_cons_of_mem r hx, hxe⟩)
      · rintro (h | ⟨x, hx, hxe⟩)
        · exact Or.inl h
        · rcases List.mem_cons.mp hx with rfl | hx'
          · exact Or.inl (by subst hxe; exact List.elem_iff.mp hc)
          · exact Or.inr ⟨x, hx', hxe⟩
    · rw [if_neg hc]
      constructor
      · rintro (h | h)
        · rcases List.mem_append.mp h with h' | h'
          · exact Or.inl h'
          · exact Or.inr ⟨r, List.mem_cons_self r rs, (List.mem_singleton.mp h').symm⟩
        · exact Or.inr (by obtain ⟨x, hx, hxe⟩ := h; exact ⟨x, List.mem_cons_of_mem r hx, hxe⟩)
      · rintro (h | ⟨x, hx, hxe⟩)
        · exact Or.inl (List.mem_append.mpr (Or.inl h))
        · rcases List.mem_cons.mp hx with rfl | hx'
          · exact Or.inl (List.mem_append.mpr (Or.inr (by simp [hxe])))
          · exact Or.inr ⟨x, hx', hxe⟩

theorem mem_firstSeenWids {w : String} {rows : List SetRow} :
    w ∈ firstSeenWids rows ↔ ∃ r ∈ rows, r.workout_id = w := by
  unfold firstSeenWids
  rw [mem_firstSeen_foldl]
  simp

theorem firstSeenWids_snoc (rows : List SetRow) (r : SetRow) :
    firstSeenWids (rows ++ [r]) =
      if (firstSeenWids rows).contains r.workout_id then firstSeenWids rows
      else firstSeenWids rows ++ [r.workout_id] := by
  unfold firstSeenWids
  rw [List.foldl_append]
  rfl

theorem export_summary_rows_snoc (rows : List SetRow) (r : SetRow) :
    export_summary_rows (rows ++ [r]) =
      summaryStep (export_summary_rows rows) r := by
  unfold export_summary_rows
  rw [List.foldl_append]
  rfl

theorem specEntry_snoc_ne (rows : List SetRow) (r : SetRow) (w : String)
    (h : (r.workout_id == w) = false) :
    specEntry (rows ++ [r]) w = specEntry rows w := by
  unfold specEntry
  rw [List.filter_append]
  have : (List.filter (fun q => q.workout_id == w) [r]) = [] := by
    simp only [List.filter, h]
  rw [this, List.append_nil]

/-- C2: `export_summary` groups records by workout id, producing exactly one
summary per distinct workout id, in first-seen order; each summary's date is
taken from the first record of its workout, and its descriptors are the
per-set descriptors of its records in log order.  Stated as: the
implementation's single-pass aggregation equals the specification map. -/
theorem export_summary_grouping (rows : List SetRow) :
    export_summary_rows rows = summarizeSpec rows := by
  induction rows using List.reverseRecOn with
  | nil => rfl
  | append_singleton rows r ih =>
    rw [export_summary_rows_snoc, ih]
    unfold summarizeSpec
    rw [firstSeenWids_snoc]
    by_cases hmem : r.workout_id ∈ firstSeenWids rows
    · rw [if_pos (List.elem_iff.mpr hmem)]
      unfold summaryStep
      have hany : ((firstSeenWids rows).map (specEntry rows)).any
          (fun s => s.workout_id == r.workout_id) = true := by
        refine List.any_eq_true.mpr ⟨specEntry rows r.workout_id, List.mem_map_of_mem _ hmem, ?_⟩
        simp [specEntry]
      rw [if_pos hany]
      rw [List.map_map]
      apply List.map_congr_left
      intro w hw
      simp only [Function.comp]
      by_cases hww : ((specEntry rows w).workout_id == r.workout_id) = true
      · have hwid : w = r.workout_id := by simpa [specEntry] using hww
        rw [if_pos hww]
        obtain ⟨x, hx, hxe⟩ := mem_firstSeenWids.mp hw
        have hne : rows.filter (fun q => q.workout_id == w) ≠ [] := by
          intro hnil
          rw [List.filter_eq_nil_iff] at hnil
          exact hnil x hx (by simp [hxe])
        obtain ⟨y, ys, hys⟩ := List.exists_cons_of_ne_nil hne
        have hrcond : (r.workout_id == w) = true := by rw [hwid]; simp
        have hfr : (List.filter (fun q => q.workout_id == w) [r]) = [r] := by
          simp only [List.filter, hrcond]
        have hspec1 : specEntry rows w = ⟨w, y.date, List.map descriptor (y :: ys)⟩ := by
          unfold specEntry
          rw [hys]
          rfl
        have hspec2 : specEntry (rows ++ [r]) w =
            ⟨w, y.date, List.map descriptor (y :: ys) ++ [descriptor r]⟩ := by
          unfold specEntry
          rw [List.filter_append, hfr, hys]
          simp [List.map_append]
        rw [hspec1, hspec2]
      · rw [if_neg hww]
        have hww' : (r.workout_id == w) = false := by
          have : ¬ w = r.workout_id := by simpa [specEntry] using hww
          simpa using fun e => this e.symm
        exact (specEntry_snoc_ne rows r w hww').symm
    · rw [if_neg (fun hc => hmem (List.elem_iff.mp hc))]
      unfold summaryStep
      have hany : ((firstSeenWids rows).map (specEntry rows)).any
          (fun s => s.workout_id == r.workout_id) = false := by
        rw [← Bool.not_eq_true, List.any_eq_true]
        rintro ⟨s, hs, hseq⟩
        obtain ⟨w, hw, hwe⟩ := List.mem_map.mp hs
        apply hmem
        have : w = r.workout_id := by
          subst hwe
          simpa [specEntry] using hseq
        rwa [this] at hw
      rw [if_neg (by rw [hany]; exact Bool.false_ne_true)]
      rw [List.map_append]
      congr 1
      · apply List.map_congr_left
        intro w hw
        have hww' : (r.workout_id == w) = false := by
          have hne : ¬ w = r.workout_id := fun e => hmem (e ▸ hw)
          simpa using fun e => hne e.symm
        exact (specEntry_snoc_ne rows r w hww').symm
      · have hnil : rows.filter (fun q => q.workout_id == r.workout_id) = [] := by
          rw [List.filter_eq_nil_iff]
          intro q hq hqe
          exact hmem (mem_firstSeenWids.mpr ⟨q, hq, by simpa using hqe⟩)
        simp only [List.map_cons, List.map_nil]
        unfold specEntry
        rw [List.filter_append, hnil]
        have hfr : (List.filter (fun q => q.workout_id == r.workout_id) [r]) = [r] := by
          simp only [List.filter, beq_self_eq_true]
        rw [hfr]
        rfl

/-- Total number of per-set descriptor tokens across all summaries. -/
def sumDescriptors (l : List SummaryRow) : Nat :=
  (l.map (fun s => s.movements.length)).sum

theorem wids_summaryStep (acc : List SummaryRow) (r : SetRow) :
    (summaryStep acc r).map (fun s => s.workout_id) =
      if acc.any (fun s => s.workout_id == r.workout_id) then
        acc.map (fun s => s.workout_id)
      else acc.map (fun s => s.workout_id) ++ [r.workout_id] := by
  unfold summaryStep
  by_cases h : acc.any (fun s => s.workout_id == r.workout_id) = true
  · rw [if_pos h, if_pos h]
    rw [List.map_map]
    apply List.map_congr_left
    intro s _
    simp only [Function.comp]
    by_cases hs : (s.workout_id == r.workout_id) = true
    · rw [if_pos hs]
    · rw [if_neg hs]
  · rw [if_neg h, if_neg h]
    rw [List.map_append]
    rfl

theorem sumDescriptors_update {acc : List SummaryRow} {w d : String}
    (hN : (acc.map (fun s => s.workout_id)).Nodup)
    (hany : acc.any (fun s => s.workout_id == w) = true) :
    sumDescriptors (acc.map (fun s => if s.workout_id == w then
        { s with movements := s.movements ++ [d] } else s)) =
      sumDescriptors acc + 1 := by
  induction acc with
  | nil => simp at hany
  | cons s ss ih =>
    simp only [List.map_cons, List.nodup_cons] at hN
    by_cases hs : (s.workout_id == w) = true
    · rw [List.map_cons, if_pos hs]
      have hss : ss.map (fun q => if q.workout_id == w then
          { q with movements := q.movements ++ [d] } else q) = ss := by
        apply map_eq_self_of_fix
        intro q hq
        have hqw : (q.workout_id == w) = false := by
          have hsw : s.workout_id = w := by simpa using hs
          have : q.workout_id ≠ s.workout_id := by
            intro he
            exact hN.1 (he ▸ List.mem_map_of_mem (fun s => s.workout_id) hq)
          simpa [hsw] using fun e => this (by rw [e, ← hsw])
        rw [if_neg (by rw [hqw]; exact Bool.false_ne_true)]
      rw [hss]
      unfold sumDescriptors
      simp only [List.map_cons, List.sum_cons, List.length_append, List.length_cons,
        List.length_nil]
      omega
    · rw [List.map_cons, if_neg hs]
      rw [List.any_cons] at hany
      have hs' : (s.workout_id == w) = false := by simpa using hs
      rw [hs', Bool.false_or] at hany
      have := ih hN.2 hany
      unfold sumDescriptors at this ⊢
      simp only [List.map_cons, List.sum_cons]
      omega

theorem sumDescriptors_step {acc : List SummaryRow} (r : SetRow)
    (hN : (acc.map (fun s => s.workout_id)).Nodup) :
    sumDescriptors (summaryStep acc r) = sumDescriptors acc + 1 := by
  unfold summaryStep
  by_cases h : acc.any (fun s => s.workout_id == r.workout_id) = true
  · rw [if_pos h]
    exact sumDescriptors_update hN h
  · rw [if_neg h]
    unfold sumDescriptors
    rw [List.map_append, List.sum_append]
    simp

theorem summaryStep_nodup {acc : List SummaryRow} (r : SetRow)
    (hN : (acc.map (fun s => s.workout_id)).Nodup) :
    ((summaryStep acc r).map (fun s => s.workout_id)).Nodup := by
  rw [wids_summaryStep]
  by_cases h : acc.any (fun s => s.workout_id == r.workout_id) = true
  · rw [if_pos h]
    exact hN
  · rw [if_neg h]
    have hout : r.workout_id ∉ acc.map (fun s => s.workout_id) := by
      intro hin
      obtain ⟨s, hs, hse⟩ := List.mem_map.mp hin
      exact h (List.any_eq_true.mpr ⟨s, hs, by simp [hse]⟩)
    simp [List.nodup_append, hN, hout]

theorem sumDescriptors_foldl : ∀ (rows : List SetRow) (acc : List SummaryRow),
    (acc.map (fun s => s.workout_id)).Nodup →
    sumDescriptors (rows.foldl summaryStep acc) = sumDescriptors acc + rows.length := by
  intro rows
  induction rows with
  | nil => intro acc _; simp
  | cons r rs ih =>
    intro acc hN
    rw [List.foldl_cons]
    rw [ih (summaryStep acc r) (summaryStep_nodup r hN)]
    rw [sumDescriptors_step r hN]
    simp only [List.length_cons]
    omega

theorem appendAllSets_length : ∀ (recs : List (SetRecord × String)) (file : List SetRow),
    (appendAllSets file recs).length = file.length + recs.length := by
  intro recs
  induction recs with
  | nil => intro file; simp [appendAllSets]
  | cons p ps ih =>
    intro file
    unfold appendAllSets at ih ⊢
    rw [List.foldl_cons, ih]
    unfold append_set_record
    simp only [List.length_append, List.length_cons, List.length_nil]
    omega

/-- C6: appending N set records to an empty log and then summarising yields
summaries whose `movements_summary` fields together contain exactly N per-set
descriptor tokens — one descriptor per appended record, summed across all
summaries. -/
theorem summary_descriptor_count (recs : List (SetRecord × String)) :
    sumDescriptors (export_summary_rows (appendAllSets [] recs)) = recs.length := by
  unfold export_summary_rows
  rw [sumDescriptors_foldl (appendAllSets [] recs) [] (by simp)]
  rw [appendAllSets_length]
  simp [sumDescriptors]

/-! The importer (`import_movements_file`).

The `while mid in existing` loop appends `_2`, `_3`, … to the slug until the
candidate is free.  It is modelled with an explicit fuel bound that provably
suffices: a candidate whose decimal index has more digits than the longest
existing key cannot collide, so the loop exits within the fuel. -/

theorem toDigitsCore_length_lower (b : Nat) (h2 : 2 ≤ b) :
    ∀ (e f n : Nat), n < f → b ^ e ≤ n →
    e + 1 ≤ (Nat.toDigitsCore b f n []).length := by
  intro e
  induction e with
  | zero =>
    intro f n hf hn
    rw [pow_zero] at hn
    cases f with
    | zero => omega
    | succ f =>
      simp only [Nat.toDigitsCore]
      by_cases hdiv : n / b = 0
      · simp [hdiv]
      · simp only [hdiv, if_false]
        rw [Nat.toDigitsCore_lens_eq]
        omega
  | succ e ih =>
    intro f n hf hn
    have hb0 : 0 < b := by omega
    have hb1 : 1 < b := by omega
    have hpow : 0 < b ^ e := Nat.pos_pow_of_pos e hb0
    have hdivge : b ^ e ≤ n / b := by
      rw [Nat.le_div_iff_mul_le hb0]
      calc b ^ e * b = b ^ (e + 1) := (pow_succ b e).symm
        _ ≤ n := hn
    have hnpos : 0 < n := lt_of_lt_of_le (Nat.pos_pow_of_pos (e + 1) hb0) hn
    have hdivlt : n / b < n := Nat.div_lt_self hnpos hb1
    have hdivne : n / b ≠ 0 := by omega
    cases f with
    | zero => omega
    | succ f =>
      simp only [Nat.toDigitsCore]
      simp only [hdivne, if_false]
      rw [Nat.toDigitsCore_lens_eq]
      have := ih f (n / b) (by omega) hdivge
      omega

theorem repr_length_lower (e n : Nat) (h : 10 ^ e ≤ n) :
    e + 1 ≤ (Nat.repr n).length := by
  have := toDigitsCore_length_lower 10 (by norm_num) e (n + 1) n (Nat.lt_succ_self n) h
  simpa [Nat.repr, Nat.toDigits, String.length, List.asString] using this

/-- The candidate produced by iteration `i` of the collision loop:
`f"{slugify(name)}_{i}"`. -/
def candN (slug : String) (i : Nat) : String := slug ++ "_" ++ Nat.repr i

/-- The `while mid in existing` loop of `import_movements_file`; `i` and
`mid` are the loop variables, `fuel` a bound on the number of iterations. -/
def while_resolve (slug : String) (keys : List String) : Nat → Nat → String → String
  | 0, _, mid => mid
  | fuel + 1, i, mid =>
    if keys.contains mid then while_resolve slug keys fuel (i + 1) (candN slug (i + 1))
    else mid

/-- Length of the longest existing key. -/
def maxKeyLen (keys : List String) : Nat :=
  keys.foldr (fun s acc => max s.length acc) 0

/-- The spec's `resolveUnique`: start from the slug and increment the numeric
suffix until the identifier is free.  The fuel `10 ^ (maxKeyLen keys + 1) + 1`
is sufficient for the loop to reach a free candidate (proved below). -/
def resolve_unique (slug : String) (keys : List String) : String :=
  while_resolve slug keys (10 ^ (maxKeyLen keys + 1) + 1) 1 slug

theorem while_resolve_succ (slug : String) (keys : List String)
    (fuel i : Nat) (mid : String) :
    while_resolve slug keys (fuel + 1) i mid =
      if keys.contains mid then while_resolve slug keys fuel (i + 1) (candN slug (i + 1))
      else mid := rfl

theorem string_mk_append (a b : List Char) :
    (String.mk a) ++ (String.mk b) = String.mk (a ++ b) := rfl

theorem string_length_append (a b : String) :
    (a ++ b).length = a.length + b.length := by
  cases a with
  | mk da =>
    cases b with
    | mk db =>
      rw [string_mk_append]
      simp [String.length]

theorem length_candN (slug : String) (i : Nat) :
    (candN slug i).length = slug.length + 1 + (Nat.repr i).length := by
  unfold candN
  rw [string_length_append, string_length_append]
  rfl

theorem candN_ne_empty (slug : String) (i : Nat) : candN slug i ≠ "" := by
  intro h
  have h0 : (candN slug i).length = 0 := by rw [h]; rfl
  rw [length_candN] at h0
  omega

theorem mem_len_le_maxKeyLen {s : String} : ∀ {keys : List String},
    s ∈ keys → s.length ≤ maxKeyLen keys := by
  intro keys
  induction keys with
  | nil => intro h; simp at h
  | cons k ks ih =>
    intro h
    rcases List.mem_cons.mp h with rfl | h'
    · exact le_max_left _ _
    · exact le_trans (ih h') (le_max_right _ _)

theorem candN_big_not_mem (slug : String) (keys : List String) :
    candN slug (10 ^ (maxKeyLen keys + 1)) ∉ keys := by
  intro h
  have hlen := mem_len_le_maxKeyLen h
  rw [length_candN] at hlen
  have := repr_length_lower (maxKeyLen keys + 1) (10 ^ (maxKeyLen keys + 1)) (le_refl _)
  omega

theorem while_resolve_not_mem (slug : String) (keys : List String) :
    ∀ (fuel i : Nat) (mid : String),
    (keys.contains mid = false ∨
      ∃ j, i < j ∧ j ≤ i + fuel ∧ keys.contains (candN slug j) = false) →
    keys.contains (while_resolve slug keys fuel i mid) = false := by
  intro fuel
  induction fuel with
  | zero =>
    intro i mid h
    rcases h with h | ⟨j, hj1, hj2, _⟩
    · exact h
    · omega
  | succ fuel ih =>
    intro i mid h
    rw [while_resolve_succ]
    by_cases hc : keys.contains mid = true
    · rw [if_pos hc]
      apply ih
      rcases h with h | ⟨j, hj1, hj2, hjf⟩
      · rw [h] at hc; exact absurd hc Bool.false_ne_true
      · by_cases hji : j = i + 1
        · subst hji; exact Or.inl hjf
        · exact Or.inr ⟨j, by omega, by omega, hjf⟩
    · rw [if_neg hc]
      simpa using hc

theorem resolve_unique_not_mem (slug : String) (keys : List String) :
    keys.contains (resolve_unique slug keys) = false := by
  unfold resolve_unique
  apply while_resolve_not_mem
  refine Or.inr ⟨10 ^ (maxKeyLen keys + 1), ?_, ?_, ?_⟩
  · have h10 : 10 ≤ 10 ^ (maxKeyLen keys + 1) := by
      calc (10 : Nat) = 10 ^ 1 := (pow_one 10).symm
        _ ≤ 10 ^ (maxKeyLen keys + 1) := Nat.pow_le_pow_right (by norm_num) (by omega)
    omega
  · omega
  · exact Bool.eq_false_iff.mpr fun hc =>
      candN_big_not_mem slug keys (List.elem_iff.mp hc)

theorem while_resolve_shape (slug : String) (keys : List String) :
    ∀ (fuel i : Nat) (mid : String), 1 ≤ i →
    (mid = slug ∨ ∃ j, 2 ≤ j ∧ mid = candN slug j) →
    (while_resolve slug keys fuel i mid = slug ∨
      ∃ j, 2 ≤ j ∧ while_resolve slug keys fuel i mid = candN slug j) := by
  intro fuel
  induction fuel with
  | zero => intro i mid _ h; exact h
  | succ fuel ih =>
    intro i mid hi h
    rw [while_resolve_succ]
    by_cases hc : keys.contains mid = true
    · rw [if_pos hc]
      exact ih (i + 1) (candN slug (i + 1)) (by omega) (Or.inr ⟨i + 1, by omega, rfl⟩)
    · rw [if_neg hc]
      exact h

theorem resolve_unique_shape (slug : String) (keys : List String) :
    resolve_unique slug keys = slug ∨
      ∃ j, 2 ≤ j ∧ resolve_unique slug keys = candN slug j :=
  while_resolve_shape slug keys _ 1 slug (le_refl 1) (Or.inl rfl)

theorem resolve_unique_of_not_mem {slug : String} {keys : List String}
    (h : keys.contains slug = false) : resolve_unique slug keys = slug := by
  unfold resolve_unique
  rw [while_resolve_succ, h]
  rfl

theorem resolve_unique_second {slug : String} {keys : List String}
    (h1 : keys.contains slug = true) (h2 : keys.contains (candN slug 2) = false) :
    resolve_unique slug keys = candN slug 2 := by
  unfold resolve_unique
  rw [while_resolve_succ, if_pos h1]
  obtain ⟨f, hf⟩ : ∃ f, 10 ^ (maxKeyLen keys + 1) = f + 1 :=
    ⟨10 ^ (maxKeyLen keys + 1) - 1, by
      have : 0 < 10 ^ (maxKeyLen keys + 1) := Nat.pos_pow_of_pos _ (by norm_num)
      omega⟩
  rw [hf, while_resolve_succ, h2]
  rfl

/-- A parsed row of the import source, as produced by `csv.DictReader`:
an association of header names to field values (missing columns are simply
absent). -/
abbrev Row := List (String × String)

/-- Python `row.get(k)`: `none` when the column is absent. -/
def pyGet (r : Row) (k : String) : Option String :=
  (r.find? (fun p => p.1 == k)).map (fun p => p.2)

/-- Python's `or` on optional strings: `None` and `""` are falsy. -/
def pyOrStr : Option String → Option String → Option String
  | some s, b => if s = "" then b else some s
  | none, b => b

/-- The name extraction of `import_movements_file`:
`(row.get("Exercise_Name") or row.get("Exercise Name") or row.get("Exercise")
or "").strip()`. -/
def getName (r : Row) : String :=
  pyStrip ((pyOrStr (pyGet r "Exercise_Name")
    (pyOrStr (pyGet r "Exercise Name") (pyGet r "Exercise"))).getD "")

/-- The category extraction: `(row.get("Movement_Group") or "").strip()`. -/
def getCategory (r : Row) : String :=
  pyStrip ((pyOrStr (pyGet r "Movement_Group") (some "")).getD "")

/-- The movement built for one surviving import row:
`Movement(id=resolveUnique(slugify(name), existing), name=name,
category=...)`. -/
def mkImportMovement (r : Row) (existing : List (String × Movement)) : Movement :=
  { id := resolve_unique (slugify (getName r)) (existing.map (fun p => p.1)),
    name := getName r, category := getCategory r }

/-- The row loop of `import_movements_file`: skip rows with no resolvable
name, skip rows whose name is already present in the snapshot
(case-insensitively), otherwise create the movement, append it through the
catalog store, extend the snapshot, and count it. -/
def import_loop : List Row → List Movement → List (String × Movement) → Nat →
    Except CatalogError (List Movement × Nat)
  | [], file, _, count => .ok (file, count)
  | r :: rs, file, existing, count =>
    if getName r = "" then import_loop rs file existing count
    else if existing.any (fun p => pyLower p.2.name == pyLower (getName r)) then
      import_loop rs file existing count
    else
      match append_movement file (mkImportMovement r existing) with
      | .error e => .error e
      | .ok file2 =>
          import_loop rs file2
            (dictInsert existing (mkImportMovement r existing).id
              (mkImportMovement r existing))
            (count + 1)

/-- The body of `import_movements_file` after the source has been read and
parsed: the snapshot starts as the loaded catalog. -/
def import_rows (cat : List Movement) (rows : List Row) :
    Except CatalogError (List Movement × Nat) :=
  import_loop rows cat (load_movements cat) 0

/-- Modelled from the spec: a row creates a movement exactly when it has a
non-empty resolvable name that is not yet present (case-insensitively) in the
evolving snapshot of catalog names; the count is the number of created
movements. -/
def importSpecCount : List String → List Row → Nat
  | _, [] => 0
  | snap, r :: rs =>
    if getName r = "" then importSpecCount snap rs
    else if snap.any (fun m => pyLower m == pyLower (getName r)) then
      importSpecCount snap rs
    else importSpecCount (snap ++ [getName r]) rs + 1

theorem rowKey_mkImportMovement (r : Row) (existing : List (String × Movement)) :
    rowKey (mkImportMovement r existing) = (mkImportMovement r existing).id := by
  unfold rowKey
  rcases resolve_unique_shape (slugify (getName r)) (existing.map (fun p => p.1))
    with hs | ⟨j, _, hs⟩
  · by_cases hne : (mkImportMovement r existing).id ≠ ""
    · rw [if_pos hne]
    · rw [if_neg hne]
      show slugify (getName r) = (mkImportMovement r existing).id
      exact hs.symm
  · rw [if_pos (by show resolve_unique _ _ ≠ ""; rw [hs]; exact candN_ne_empty _ _)]

theorem dictContains_eq_keys_contains (d : List (String × Movement)) (k : String) :
    dictContains d k = (d.map (fun p => p.1)).contains k := by
  by_cases h : dictContains d k = true
  · rw [h]
    obtain ⟨p, hp, hpk⟩ := List.any_eq_true.mp h
    exact (List.elem_iff.mpr (by
      exact (by simpa using hpk : p.1 = k) ▸ List.mem_map_of_mem _ hp)).symm
  · have h' : dictContains d k = false := by simpa using h
    rw [h']
    symm
    rw [Bool.eq_false_iff]
    intro hc
    obtain ⟨p, hp, hpk⟩ := List.mem_map.mp (List.elem_iff.mp hc)
    exact h (List.any_eq_true.mpr ⟨p, hp, by simp [hpk]⟩)

theorem dictInsert_fresh {d : List (String × Movement)} {k : String}
    (v : Movement) (h : dictContains d k = false) :
    dictInsert d k v = d ++ [(k, v)] := by
  unfold dictInsert
  rw [if_neg (by rw [show (d.any fun p => p.1 == k) = false from h]; exact Bool.false_ne_true)]

theorem any_map_general {α β : Type} (l : List α) (f : α → β) (p : β → Bool) :
    (l.map f).any p = l.any (fun a => p (f a)) := by
  induction l with
  | nil => rfl
  | cons x xs ih => simp only [List.map_cons, List.any_cons, ih]

theorem import_loop_ok : ∀ (rows : List Row) (file : List Movement)
    (existing : List (String × Movement)) (count : Nat),
    (∀ k, dictContains existing k = dictContains (load_movements file) k) →
    ∃ newMs : List Movement,
      import_loop rows file existing count =
        .ok (file ++ newMs,
          count + importSpecCount (existing.map (fun p => p.2.name)) rows) ∧
      newMs.length = importSpecCount (existing.map (fun p => p.2.name)) rows := by
  intro rows
  induction rows with
  | nil =>
    intro file existing count _
    exact ⟨[], by simp [import_loop, importSpecCount], by simp [importSpecCount]⟩
  | cons r rs ih =>
    intro file existing count hsync
    by_cases hname : getName r = ""
    · simp only [import_loop, importSpecCount, if_pos hname]
      exact ih file existing count hsync
    · by_cases hdup : (existing.any fun p => pyLower p.2.name == pyLower (getName r)) = true
      · have hdup2 : ((existing.map fun p => p.2.name).any
            fun nm => pyLower nm == pyLower (getName r)) = true := by
          rw [any_map_general]
          exact hdup
        simp only [import_loop, importSpecCount, if_neg hname, if_pos hdup, if_pos hdup2]
        exact ih file existing count hsync
      · have hdup2 : ¬ ((existing.map fun p => p.2.name).any
            fun nm => pyLower nm == pyLower (getName r)) = true := by
          rw [any_map_general]
          exact hdup
        have hmidfree : dictContains existing (mkImportMovement r existing).id = false := by
          rw [dictContains_eq_keys_contains]
          exact resolve_unique_not_mem _ _
        have hrk : rowKey (mkImportMovement r existing) = (mkImportMovement r existing).id :=
          rowKey_mkImportMovement r existing
        have happ : append_movement file (mkImportMovement r existing) =
            .ok (file ++ [mkImportMovement r existing]) := by
          unfold append_movement
          rw [if_neg (by rw [← hsync, hmidfree]; exact Bool.false_ne_true)]
        have hsync2 : ∀ k,
            dictContains (dictInsert existing (mkImportMovement r existing).id
              (mkImportMovement r existing)) k =
            dictContains (load_movements (file ++ [mkImportMovement r existing])) k := by
          intro k
          rw [dictContains_insert, load_movements_snoc, hrk, dictContains_insert, hsync k]
        obtain ⟨newMs, hok, hlen⟩ := ih (file ++ [mkImportMovement r existing])
          (dictInsert existing (mkImportMovement r existing).id (mkImportMovement r existing))
          (count + 1) hsync2
        have hins : dictInsert existing (mkImportMovement r existing).id
            (mkImportMovement r existing) =
            existing ++ [((mkImportMovement r existing).id, mkImportMovement r existing)] :=
          dictInsert_fresh _ hmidfree
        have hnames : (dictInsert existing (mkImportMovement r existing).id
              (mkImportMovement r existing)).map (fun p => p.2.name) =
            existing.map (fun p => p.2.name) ++ [getName r] := by
          rw [hins, List.map_append]
          rfl
        rw [hnames] at hok hlen
        refine ⟨mkImportMovement r existing :: newMs, ?_, ?_⟩
        · simp only [import_loop, importSpecCount, if_neg hname, if_neg hdup, if_neg hdup2,
            Bool.false_eq_true, if_false]
          rw [happ]
          have hlist : (file ++ [mkImportMovement r existing]) ++ newMs =
              file ++ mkImportMovement r existing :: newMs := by simp
          have harith : count + 1 + importSpecCount
              (existing.map (fun p => p.2.name) ++ [getName r]) rs =
              count + (importSpecCount (existing.map (fun p => p.2.name) ++ [getName r]) rs + 1) := by
            omega
          rw [hlist, harith] at hok
          exact hok
        · simp only [importSpecCount, if_neg hname, if_neg hdup2, List.length_cons]
          omega

theorem import_loop_new_ids : ∀ (rows : List Row) (file : List Movement)
    (existing : List (String × Movement)) (count : Nat) (file2 : List Movement) (n : Nat),
    import_loop rows file existing count = .ok (file2, n) →
    ∃ newMs, file2 = file ++ newMs ∧ ((newMs.map (fun m => m.id)).Nodup) ∧
      ∀ x ∈ newMs, dictContains (load_movements file) x.id = false := by
  intro rows
  induction rows with
  | nil =>
    intro file existing count file2 n hok
    simp only [import_loop, Except.ok.injEq, Prod.mk.injEq] at hok
    obtain ⟨h1, _⟩ := hok
    subst h1
    exact ⟨[], by simp, by simp, by simp⟩
  | cons r rs ih =>
    intro file existing count file2 n hok
    simp only [import_loop] at hok
    by_cases hname : getName r = ""
    · rw [if_pos hname] at hok
      exact ih file existing count file2 n hok
    · rw [if_neg hname] at hok
      by_cases hdup : (existing.any fun p => pyLower p.2.name == pyLower (getName r)) = true
      · rw [if_pos hdup] at hok
        exact ih file existing count file2 n hok
      · rw [if_neg hdup] at hok
        by_cases hc : dictContains (load_movements file) (mkImportMovement r existing).id = true
        · unfold append_movement at hok
          rw [if_pos hc] at hok
          simp at hok
        · have hc' : dictContains (load_movements file)
              (mkImportMovement r existing).id = false := by simpa using hc
          unfold append_movement at hok
          rw [if_neg hc] at hok
          have hok2 : import_loop rs (file ++ [mkImportMovement r existing])
              (dictInsert existing (mkImportMovement r existing).id
                (mkImportMovement r existing)) (count + 1) = .ok (file2, n) := hok
          obtain ⟨newMs, h2, hnd, hfresh⟩ := ih (file ++ [mkImportMovement r existing])
            (dictInsert existing (mkImportMovement r existing).id (mkImportMovement r existing))
            (count + 1) file2 n hok2
          refine ⟨mkImportMovement r existing :: newMs, ?_, ?_, ?_⟩
          · rw [h2]
            simp
          · simp only [List.map_cons, List.nodup_cons]
            refine ⟨?_, hnd⟩
            intro hmemid
            obtain ⟨x, hx, hxe⟩ := List.mem_map.mp hmemid
            have hxf := hfresh x hx
            rw [load_movements_snoc, dictContains_insert, rowKey_mkImportMovement] at hxf
            rw [hxe] at hxf
            simp at hxf
          · intro x hx
            rcases List.mem_cons.mp hx with rfl | hx'
            · exact hc'
            · have hxf := hfresh x hx'
              rw [load_movements_snoc, dictContains_insert, rowKey_mkImportMovement] at hxf
              exact (Bool.or_eq_false_iff.mp hxf).2

theorem string_append_assoc (a b c : String) : (a ++ b) ++ c = a ++ (b ++ c) := by
  cases a with
  | mk da =>
    cases b with
    | mk db =>
      cases c with
      | mk dc =>
        rw [string_mk_append, string_mk_append, string_mk_append, string_mk_append,
          List.append_assoc]

theorem candN_two (s : String) : candN s 2 = s ++ "_2" := by
  unfold candN
  rw [show Nat.repr 2 = "2" from rfl, string_append_assoc]
  rfl

theorem ne_append_two (s : String) : s ≠ s ++ "_2" := by
  intro he
  have hlen : s.length = (s ++ "_2").length := by rw [← he]
  rw [string_length_append] at hlen
  have h2 : ("_2" : String).length = 2 := rfl
  rw [h2] at hlen
  omega

/-- C4: when two rows whose distinct raw names (not equal even
case-insensitively, so neither is deduplicated) normalise to the same slug
are imported in one run over an empty catalog, the first created movement
receives the bare slug and the second receives the slug with suffix `_2`,
and the two ids differ.  Moreover, in any import run over any catalog, the
ids of all successfully inserted movements are pairwise distinct. -/
theorem mkImportMovement_def (r : Row) (existing : List (String × Movement)) :
    mkImportMovement r existing =
      ⟨resolve_unique (slugify (getName r)) (existing.map (fun p => p.1)),
        getName r, getCategory r, "", "", "", ""⟩ := rfl

theorem import_loop_cons_create (r : Row) (rs : List Row) (file : List Movement)
    (existing : List (String × Movement)) (count : Nat) (file2 : List Movement)
    (hname : ¬ getName r = "")
    (hany : ¬ (existing.any fun p => pyLower p.2.name == pyLower (getName r)) = true)
    (happ : append_movement file (mkImportMovement r existing) = .ok file2) :
    import_loop (r :: rs) file existing count =
      import_loop rs file2 (dictInsert existing (mkImportMovement r existing).id
        (mkImportMovement r existing)) (count + 1) := by
  simp only [import_loop]
  rw [if_neg hname, if_neg hany, happ]

/-- C4: when two rows whose distinct raw names (not equal even
case-insensitively, so neither is deduplicated) normalise to the same slug
are imported in one run over an empty catalog, the first created movement
receives the bare slug and the second receives the slug with suffix `_2`,
and the two ids differ.  Moreover, in any import run over any catalog, the
ids of all successfully inserted movements are pairwise distinct. -/
theorem import_slug_collision :
    (∀ (r1 r2 : Row) (n1 n2 : String), getName r1 = n1 → getName r2 = n2 →
      n1 ≠ "" → n2 ≠ "" → pyLower n1 ≠ pyLower n2 → slugify n2 = slugify n1 →
      import_rows [] [r1, r2] =
        .ok ([⟨slugify n1, n1, getCategory r1, "", "", "", ""⟩,
              ⟨slugify n1 ++ "_2", n2, getCategory r2, "", "", "", ""⟩], 2) ∧
      slugify n1 ≠ slugify n1 ++ "_2") ∧
    (∀ (cat : List Movement) (rows : List Row) (file2 : List Movement) (n : Nat),
      import_rows cat rows = .ok (file2, n) →
      ((file2.drop cat.length).map (fun m => m.id)).Nodup) := by
  constructor
  · intro r1 r2 n1 n2 hn1 hn2 hne1 hne2 hlow hslug
    subst hn1
    subst hn2
    refine ⟨?_, ne_append_two _⟩
    have hmk1 : mkImportMovement r1 [] =
        ⟨slugify (getName r1), getName r1, getCategory r1, "", "", "", ""⟩ := by
      rw [mkImportMovement_def, List.map_nil]
      rw [resolve_unique_of_not_mem
        (show ([] : List String).contains (slugify (getName r1)) = false from rfl)]
    have happ1 : append_movement []
        (⟨slugify (getName r1), getName r1, getCategory r1, "", "", "", ""⟩ : Movement) =
        .ok [⟨slugify (getName r1), getName r1, getCategory r1, "", "", "", ""⟩] := by
      unfold append_movement
      rw [if_neg (by simp [load_movements, dictContains])]
      rfl
    have hrk1 : rowKey (⟨slugify (getName r1), getName r1, getCategory r1,
        "", "", "", ""⟩ : Movement) = slugify (getName r1) := by
      rw [← hmk1, rowKey_mkImportMovement, hmk1]
    have hres2 : resolve_unique (slugify (getName r2))
        (List.map (fun p => p.1) [(slugify (getName r1),
          (⟨slugify (getName r1), getName r1, getCategory r1, "", "", "", ""⟩ : Movement))]) =
        slugify (getName r1) ++ "_2" := by
      rw [List.map_cons, List.map_nil, hslug, ← candN_two]
      apply resolve_unique_second
      · simp
      · have hcne : candN (slugify (getName r1)) 2 ≠ slugify (getName r1) := by
          rw [candN_two]
          exact fun he => ne_append_two _ he.symm
        exact Bool.eq_false_iff.mpr fun hc => hcne (by simpa using List.elem_iff.mp hc)
    have hmk2 : mkImportMovement r2 [(slugify (getName r1),
        (⟨slugify (getName r1), getName r1, getCategory r1, "", "", "", ""⟩ : Movement))] =
        ⟨slugify (getName r1) ++ "_2", getName r2, getCategory r2, "", "", "", ""⟩ := by
      rw [mkImportMovement_def, hres2]
    have hload1 : load_movements
        [⟨slugify (getName r1), getName r1, getCategory r1, "", "", "", ""⟩] =
        [(slugify (getName r1),
          ⟨slugify (getName r1), getName r1, getCategory r1, "", "", "", ""⟩)] := by
      show dictInsert [] (rowKey ⟨slugify (getName r1), getName r1, getCategory r1,
          "", "", "", ""⟩)
          { (⟨slugify (getName r1), getName r1, getCategory r1, "", "", "", ""⟩ : Movement)
            with id := rowKey ⟨slugify (getName r1), getName r1, getCategory r1,
              "", "", "", ""⟩ } = _
      rw [hrk1]
      rfl
    have happ2 : append_movement
        [⟨slugify (getName r1), getName r1, getCategory r1, "", "", "", ""⟩]
        (⟨slugify (getName r1) ++ "_2", getName r2, getCategory r2, "", "", "", ""⟩ : Movement) =
        .ok [⟨slugify (getName r1), getName r1, getCategory r1, "", "", "", ""⟩,
          ⟨slugify (getName r1) ++ "_2", getName r2, getCategory r2, "", "", "", ""⟩] := by
      unfold append_movement
      rw [if_neg ?hcond]
      · rfl
      case hcond =>
        rw [hload1]
        intro hcon
        unfold dictContains at hcon
        simp only [List.any_cons, List.any_nil, Bool.or_false] at hcon
        exact ne_append_two (slugify (getName r1)) (by simpa using hcon)
    have hany1 : ¬ (([] : List (String × Movement)).any
        (fun p => pyLower p.2.name == pyLower (getName r1))) = true := by simp
    have hany2 : ¬ ([(slugify (getName r1),
        (⟨slugify (getName r1), getName r1, getCategory r1, "", "", "", ""⟩ : Movement))].any
        (fun p => pyLower p.2.name == pyLower (getName r2))) = true := by
      simp only [List.any_cons, List.any_nil, Bool.or_false]
      simpa using hlow
    have happ1m : append_movement [] (mkImportMovement r1 []) =
        .ok [⟨slugify (getName r1), getName r1, getCategory r1, "", "", "", ""⟩] := by
      rw [hmk1]
      exact happ1
    have happ2m : append_movement
        [⟨slugify (getName r1), getName r1, getCategory r1, "", "", "", ""⟩]
        (mkImportMovement r2 [(slugify (getName r1),
          (⟨slugify (getName r1), getName r1, getCategory r1, "", "", "", ""⟩ : Movement))]) =
        .ok [⟨slugify (getName r1), getName r1, getCategory r1, "", "", "", ""⟩,
          ⟨slugify (getName r1) ++ "_2", getName r2, getCategory r2, "", "", "", ""⟩] := by
      rw [hmk2]
      exact happ2
    unfold import_rows
    rw [show load_movements ([] : List Movement) = [] from rfl]
    rw [import_loop_cons_create r1 [r2] [] [] 0 _ hne1 hany1 happ1m]
    rw [hmk1]
    rw [show dictInsert []
        (⟨slugify (getName r1), getName r1, getCategory r1, "", "", "", ""⟩ : Movement).id
        ⟨slugify (getName r1), getName r1, getCategory r1, "", "", "", ""⟩ =
      [(slugify (getName r1),
        ⟨slugify (getName r1), getName r1, getCategory r1, "", "", "", ""⟩)] from rfl]
    rw [import_loop_cons_create r2 [] _ _ (0 + 1) _ hne2 hany2 happ2m]
    simp only [import_loop]
  · intro cat rows file2 n hok
    obtain ⟨newMs, h2, hnd, _⟩ := import_loop_new_ids rows cat (load_movements cat) 0 file2 n hok
    rw [h2, List.drop_left]
    exact hnd

/-- Witness for C4 at concrete inputs: importing rows named
`"Overhead Press"` and `"Overhead_Press"` (distinct names, same slug
`overhead_press`) creates ids `overhead_press` and `overhead_press_2`. -/
theorem import_slug_collision_witness :
    import_rows [] [[("Exercise_Name", "Overhead Press")],
        [("Exercise_Name", "Overhead_Press")]] =
      .ok ([⟨"overhead_press", "Overhead Press", "", "", "", "", ""⟩,
            ⟨"overhead_press_2", "Overhead_Press", "", "", "", "", ""⟩], 2) ∧
    ("overhead_press" : String) ≠ "overhead_press_2" := by
  have h := import_slug_collision.1 [("Exercise_Name", "Overhead Press")]
    [("Exercise_Name", "Overhead_Press")] "Overhead Press" "Overhead_Press"
    (by decide) (by decide) (by decide) (by decide) (by decide) (by decide)
  exact ⟨h.1, h.2⟩

/-- Errors of the file-level importer: the Python code raises
`FileNotFoundError` (SourceNotFound) when the path does not exist, an
unguarded `IndexError` from `text.splitlines()[0]` when the file exists but
is empty, and `ValueError` (DuplicateIdentifier) from the catalog store. -/
inductive ImportError where
  | sourceNotFound
  | headerIndexError
  | duplicateIdentifier
deriving DecidableEq

/-- Split a character list on a separator character, Python
`str.split(sep)` style: `""` yields one empty part, a trailing separator
yields a trailing empty part. -/
def splitOnChar (delim : Char) : List Char → List (List Char)
  | [] => [[]]
  | c :: cs =>
    if c == delim then [] :: splitOnChar delim cs
    else
      match splitOnChar delim cs with
      | [] => [[c]]
      | w :: ws => (c :: w) :: ws

/-- Python `s.split(sep)` for a one-character separator. -/
def pySplit (s : String) (delim : Char) : List String :=
  (splitOnChar delim s.data).map String.mk

/-- Python `c in s` for a one-character needle. -/
def pyContains (s : String) (c : Char) : Bool :=
  s.data.any (fun x => x == c)

/-- Python `str.splitlines` restricted to newline separators: split on
newlines, with no empty trailing entry for text ending in a newline, and an
empty list for empty text. -/
def pySplitlines (s : String) : List String :=
  if (pySplit s '\n').getLast? = some "" then (pySplit s '\n').dropLast
  else pySplit s '\n'

/-- One data row as read by `csv.DictReader` (quoting not modelled): fields
are split on the delimiter and keyed by the header; blank lines yield no
row; short rows simply lack the trailing keys. -/
def parseRow (header : List String) (delim : Char) (line : String) : Option Row :=
  if line = "" then none
  else some (header.zip (pySplit line delim))

/-- `import_movements_file` from `Main.py`, with the backing file modelled as
`Option String` (`none` = the path does not exist): checks existence, reads
the text, takes `text.splitlines()[0]` as the header line (an `IndexError`
when there are no lines), auto-detects the delimiter (tab if the header line
contains one, else comma), parses the remaining lines, and runs the row
loop against the loaded catalog. -/
def import_movements_file (source : Option String) (cat : List Movement) :
    Except ImportError (List Movement × Nat) :=
  match source with
  | none => .error .sourceNotFound
  | some text =>
    match pySplitlines text with
    | [] => .error .headerIndexError
    | first :: rest =>
      match import_rows cat (rest.filterMap (parseRow
          (pySplit first (if pyContains first '\t' then '\t' else ','))
          (if pyContains first '\t' then '\t' else ','))) with
      | .error .duplicateIdentifier => .error .duplicateIdentifier
      | .ok res => .ok res

theorem import_movements_file_cons (text : String) (cat : List Movement)
    (first : String) (rest : List String) (h : pySplitlines text = first :: rest) :
    import_movements_file (some text) cat =
      match import_rows cat (rest.filterMap (parseRow
          (pySplit first (if pyContains first '\t' then '\t' else ','))
          (if pyContains first '\t' then '\t' else ','))) with
      | .error .duplicateIdentifier => .error .duplicateIdentifier
      | .ok res => .ok res := by
  simp only [import_movements_file]
  rw [h]

/-- C10: on a missing source the import fails with SourceNotFound; on a
source that exists but has empty content it raises the unguarded index error
from reading the header line (not SourceNotFound, and it does not return a
count); and SourceNotFound is never raised for an existing source. -/
theorem import_file_error_modes :
    (∀ cat, import_movements_file none cat = .error .sourceNotFound) ∧
    (∀ cat, import_movements_file (some "") cat = .error .headerIndexError) ∧
    (∀ text cat, (∃ v, import_movements_file (some text) cat = .ok v) ∨
      import_movements_file (some text) cat = .error .headerIndexError ∨
      import_movements_file (some text) cat = .error .duplicateIdentifier) := by
  refine ⟨fun cat => rfl, fun cat => ?_, fun text cat => ?_⟩
  · simp only [import_movements_file]
    rw [show pySplitlines "" = [] from by decide]
  · rcases hsp : pySplitlines text with _ | ⟨first, rest⟩
    · refine Or.inr (Or.inl ?_)
      simp only [import_movements_file]
      rw [hsp]
    · rw [import_movements_file_cons text cat first rest hsp]
      cases him : import_rows cat (rest.filterMap (parseRow
          (pySplit first (if pyContains first '\t' then '\t' else ','))
          (if pyContains first '\t' then '\t' else ','))) with
      | error e =>
        cases e
        exact Or.inr (Or.inr rfl)
      | ok v => exact Or.inl ⟨v, rfl⟩

/-- C5: for every source table, the import returns exactly the number of
newly created movements: a row creates a movement if and only if it yields a
non-empty name under the accepted header aliases and no movement with the
same name (case-insensitively) exists in the in-memory snapshot at that
point of the run; rows with no resolvable name and rows whose name is
already present are skipped without error.  The count equals both the
spec-side creation count and the number of rows added to the catalog; the
same holds through the file-level entry point for any readable non-empty
source. -/
theorem import_count_spec :
    (∀ (cat : List Movement) (rows : List Row),
      ∃ file2 : List Movement,
        import_rows cat rows =
          .ok (file2, importSpecCount ((load_movements cat).map (fun p => p.2.name)) rows) ∧
        file2.length = cat.length +
          importSpecCount ((load_movements cat).map (fun p => p.2.name)) rows) ∧
    (∀ (text : String) (cat : List Movement) (first : String) (rest : List String),
      pySplitlines text = first :: rest →
      ∃ file2 : List Movement,
        import_movements_file (some text) cat =
          .ok (file2, importSpecCount ((load_movements cat).map (fun p => p.2.name))
            (rest.filterMap (parseRow
              (pySplit first (if pyContains first '\t' then '\t' else ','))
              (if pyContains first '\t' then '\t' else ',')))) ∧
        file2.length = cat.length +
          importSpecCount ((load_movements cat).map (fun p => p.2.name))
            (rest.filterMap (parseRow
              (pySplit first (if pyContains first '\t' then '\t' else ','))
              (if pyContains first '\t' then '\t' else ',')))) := by
  have main : ∀ (cat : List Movement) (rows : List Row),
      ∃ file2 : List Movement,
        import_rows cat rows =
          .ok (file2, importSpecCount ((load_movements cat).map (fun p => p.2.name)) rows) ∧
        file2.length = cat.length +
          importSpecCount ((load_movements cat).map (fun p => p.2.name)) rows := by
    intro cat rows
    obtain ⟨newMs, hok, hlen⟩ := import_loop_ok rows cat (load_movements cat) 0 (fun k => rfl)
    refine ⟨cat ++ newMs, ?_, ?_⟩
    · unfold import_rows
      rw [hok]
      simp
    · simp [hlen]
  refine ⟨main, ?_⟩
  intro text cat first rest hsp
  obtain ⟨file2, hok, hlen⟩ := main cat (rest.filterMap (parseRow
    (pySplit first (if pyContains first '\t' then '\t' else ','))
    (if pyContains first '\t' then '\t' else ',')))
  refine ⟨file2, ?_, hlen⟩
  rw [import_movements_file_cons text cat first rest hsp, hok]

/-- Witness for C5 at a concrete input: importing a two-row tab-separated
source with names Snatch and Clean into an empty catalog returns count 2 and
adds two rows. -/
theorem import_count_spec_witness :
    ∃ file2 : List Movement,
      import_movements_file
        (some "Exercise_Name\tMovement_Group\nSnatch\tFull Body\nClean\tFull Body\n") [] =
        .ok (file2, 2) ∧
      file2.length = 2 := by
  obtain ⟨file2, hok, hlen⟩ := import_count_spec.2
    "Exercise_Name\tMovement_Group\nSnatch\tFull Body\nClean\tFull Body\n" []
    "Exercise_Name\tMovement_Group" ["Snatch\tFull Body", "Clean\tFull Body"] (by decide)
  exact ⟨file2, hok, hlen⟩
